import Mathlib

/-!
Verification development for the streaming ID3v2 metadata codec in `meta.go`
of the getcast repository.  Bytes are modelled as `Nat` (every value the code
stores is below 256), Go byte slices and buffers as `List Nat`, and the
stateful methods on `*Meta` as state-passing functions `Meta → ... × Meta`.
Go's `bytes.Buffer.Next`/`ReadByte` are modelled with `List.take`/`List.drop`;
a nil buffer is modelled as the empty list (observationally equivalent for
every method the claims touch).
-/

namespace Getcast

/-- Error results of `Meta.Write`: Go's `nil` error or `io.EOF`. -/
inductive GoError where
  | nil : GoError
  | eof : GoError
deriving DecidableEq, Repr

/-- The literal magic `"ID3"` as bytes. -/
def id3Magic : List Nat := [73, 68, 51]

/-- Models `strings.ToUpper` on a single ASCII byte.  Go's `strings.ToUpper`
is exactly this byte-wise map on all-ASCII strings (its ASCII fast path);
on non-ASCII input it additionally remaps non-ASCII runes (for example
µ → Μ and é → É) and replaces invalid UTF-8 bytes with the 3-byte U+FFFD
sequence, which this byte-wise model does not capture.  Every theorem
below that quantifies over ids flowing into an uppercasing call therefore
restricts them to ASCII bytes (`id.all (· < 128)`) or to `validIDChar`
ids, the domains on which this model coincides with Go. -/
def toUpperByte (b : Nat) : Nat := if 97 ≤ b ∧ b ≤ 122 then b - 32 else b

/-- Length in bytes of a frame id for the version: 3 for ID3v2.2, else 4
(from `readID` in meta.go). -/
def idLenOf (version : Nat) : Nat := if version = 2 then 3 else 4

/-- Character validation from `readID`: frame id bytes can be digits and
uppercase letters.  Mirrors Go's
`char < '0' || char > 'Z' || (char > '9' && char < 'A')` rejection test. -/
def validIDChar (c : Nat) : Bool := !(c < 48 || c > 90 || (c > 57 && c < 65))

/-- Models `readID` from meta.go.  The Go function advances the shared buffer;
callers below perform the corresponding `List.drop (idLenOf version)`. -/
def readID (buf : List Nat) (version : Nat) : Option (List Nat) :=
  let id := buf.take (idLenOf version)
  if id.length ≠ idLenOf version then none
  else if id.all validIDChar then some id else none

/-- Number of length bytes read by `readLen`: 3 for v2.2 frame lengths, else 4. -/
def lenBytesOf (version : Nat) (header : Bool) : Nat :=
  if version = 2 ∧ ¬header then 3 else 4

/-- Bit width per length byte in `readLen`: plain 8-bit for v2.3 frame
lengths, synch-safe 7-bit otherwise. -/
def lenWidthOf (version : Nat) (header : Bool) : Nat :=
  if version = 3 ∧ ¬header then 8 else 7

/-- The accumulation loop of `readLen`: `num <<= width; num |= int(v)`. -/
def readLenVal (bytes : List Nat) (width : Nat) : Nat :=
  bytes.foldl (fun num b => (num <<< width) ||| b) 0

/-- Models `readLen` from meta.go: returns -1 when fewer than the required
bytes are available, otherwise the accumulated big-endian value.  The Go
function advances the shared buffer; callers below perform the
corresponding `List.drop (lenBytesOf version header)`. -/
def readLen (buf : List Nat) (version : Nat) (header : Bool) : Int :=
  let bytes := buf.take (lenBytesOf version header)
  if bytes.length ≠ lenBytesOf version header then -1
  else (readLenVal bytes (lenWidthOf version header) : Int)

/-- Models `writeLen` from meta.go.  Position `j` of the output holds
`byte(n >> (shiftWidth * (bufLen-1-j))) & refByte`; masking with the
reference byte after the byte conversion equals a single `&&&` mask. -/
def writeLen (n : Nat) (version : Nat) (header : Bool) : List Nat :=
  let bufLen := if version = 2 ∧ ¬header then 3 else 4
  let shiftWidth := if version = 3 ∧ ¬header then 8 else 7
  let refByte := if version = 3 ∧ ¬header then 255 else 127
  (List.range bufLen).map (fun i => (n >>> (shiftWidth * (bufLen - 1 - i))) &&& refByte)

/-- UTF-8 encoding of a code point, modelling `utf8.EncodeRune` for the
runes the UTF-16 decoder can produce. -/
def encodeRune (r : Nat) : List Nat :=
  if r < 0x80 then [r]
  else if r < 0x800 then [0xC0 ||| (r >>> 6), 0x80 ||| (r &&& 0x3F)]
  else if r < 0x10000 then
    [0xE0 ||| (r >>> 12), 0x80 ||| ((r >>> 6) &&& 0x3F), 0x80 ||| (r &&& 0x3F)]
  else
    [0xF0 ||| (r >>> 18), 0x80 ||| ((r >>> 12) &&& 0x3F),
     0x80 ||| ((r >>> 6) &&& 0x3F), 0x80 ||| (r &&& 0x3F)]

/-- Models `utf16.IsSurrogate` from the Go standard library. -/
def isSurrogate (x : Nat) : Bool := 0xD800 ≤ x ∧ x < 0xE000

/-- Models `isHighSurrogate` from golang.org/x/text/encoding/unicode. -/
def isHighSurrogate (x : Nat) : Bool := 0xD800 ≤ x ∧ x < 0xDC00

/-- Models `utf16.DecodeRune`: combines a surrogate pair, or yields the
replacement character U+FFFD. -/
def decodeRunePair (r1 r2 : Nat) : Nat :=
  if 0xD800 ≤ r1 ∧ r1 < 0xDC00 ∧ 0xDC00 ≤ r2 ∧ r2 < 0xE000 then
    0x10000 + (((r1 - 0xD800) <<< 10) ||| (r2 - 0xDC00))
  else 0xFFFD

/-- Main loop of the UTF-16 decoder transform of
golang.org/x/text/encoding/unicode (`utf16Decoder.Transform` with
`atEOF = true`, as invoked through `decoder.Bytes` in meta.go).  The `fuel`
argument only bounds the number of iterations so the recursion is
structural; every iteration consumes at least one source byte, so the
`src.length` supplied by `utf16DecodeLoop` is never exhausted. -/
def utf16Iter (littleEndian : Bool) : Nat → List Nat → List Nat
  | 0, _ => []
  | fuel + 1, src =>
    match src with
    | [] => []
    | [_] => encodeRune 0xFFFD
    | b0 :: b1 :: rest =>
      let x := if littleEndian then (b1 <<< 8) ||| b0 else (b0 <<< 8) ||| b1
      if isSurrogate x then
        match rest with
        | b2 :: b3 :: _ =>
          let x2 := if littleEndian then (b3 <<< 8) ||| b2 else (b2 <<< 8) ||| b3
          if isHighSurrogate x2 then
            encodeRune 0xFFFD ++ utf16Iter littleEndian fuel rest
          else
            encodeRune (decodeRunePair x x2) ++ utf16Iter littleEndian fuel (rest.drop 2)
        | _ => encodeRune 0xFFFD ++ utf16Iter littleEndian fuel rest
      else encodeRune x ++ utf16Iter littleEndian fuel rest

/-- The UTF-16 decode loop at its adequate fuel. -/
def utf16DecodeLoop (littleEndian : Bool) (src : List Nat) : List Nat :=
  utf16Iter littleEndian src.length src

/-- Models `unicode.UTF16(unicode.LittleEndian, unicode.ExpectBOM).NewDecoder()`
applied via `decoder.Bytes`: a leading BOM selects the endianness; a missing
BOM is an error, in which case meta.go ignores the error and keeps the empty
output. -/
def utf16WithBOMDecode (src : List Nat) : List Nat :=
  match src with
  | 254 :: 255 :: rest => utf16DecodeLoop false rest
  | 255 :: 254 :: rest => utf16DecodeLoop true rest
  | _ => []

/-- Models `unicode.UTF16(unicode.BigEndian, unicode.IgnoreBOM).NewDecoder()`
applied via `decoder.Bytes`. -/
def utf16BigEndianDecode (src : List Nat) : List Nat :=
  utf16DecodeLoop false src

/-- Models `bytes.TrimSuffix(value, []byte{0x00})`: drops one trailing NUL
byte when present. -/
def trimSuffixNul (v : List Nat) : List Nat :=
  if v.getLast? = some 0 then v.dropLast else v

/-- The encoding-marker switch applied to a frame value in `parseFrames`,
followed by the single-NUL trim.  The empty case is unreachable from the
parser (the declared size is positive there). -/
def decodeValue (value : List Nat) : List Nat :=
  let v := match value with
    | 0 :: rest => rest
    | 1 :: rest => utf16WithBOMDecode rest
    | 2 :: rest => utf16BigEndianDecode rest
    | 3 :: rest => rest
    | _ => value
  trimSuffixNul v

/-- Frame from meta.go: an id and a decoded value (Go strings are byte
sequences, so the id is also a byte list). -/
structure Frame where
  id : List Nat
  value : List Nat
deriving DecidableEq, Repr

/-- Meta from meta.go.  The nil `*bytes.Buffer` is modelled as `[]`. -/
structure Meta where
  buffer : List Nat := []
  buffered : Bool := false
  noMeta : Bool := false
  readFrames : Bool := false
  frames : List Frame := []
deriving DecidableEq, Repr

/-- A Meta as produced by `NewMeta(nil)`. -/
def metaInit : Meta := {}

/-- Reported total metadata length of a buffer's contents, from `Meta.length`:
-1 when undeterminable, 0 when the data carries no tag, otherwise the
declared length plus 10 header bytes.  The three single-byte reads
(major version, minor version, flags) each yield -1 when the buffer is
exhausted, collapsed here into the `length < 6` test. -/
def tagLen (bs : List Nat) : Int :=
  if bs.length < 3 then -1
  else if bs.take 3 ≠ id3Magic then 0
  else if bs.length < 6 then -1
  else
    let version := bs.getD 3 0
    let sz := readLen (bs.drop 6) version true
    if sz < 0 then -1 else sz + 10

/-- Models `Meta.length`. -/
def Meta.length (m : Meta) : Int :=
  if m.noMeta then 0 else tagLen m.buffer

/-- Loop of `parseFrames` over the byte region that follows the outer
(and any extended) header.  The `fuel` argument only bounds the number of
iterations so the recursion is structural; every iteration consumes at
least three buffer bytes, so the `buf.length` supplied by `parseFrameLoop`
is never exhausted. -/
def parseFrameIter (version : Nat) : Nat → List Nat → List Frame
  | 0, _ => []
  | fuel + 1, buf =>
    if buf.isEmpty then []
    else
      match readID buf version with
      | none => []
      | some id =>
        let buf1 := buf.drop (idLenOf version)
        let size := readLen buf1 version false
        let buf2 := buf1.drop (lenBytesOf version false)
        if size ≤ 0 then []
        else if version ≠ 2 then
          let flags := buf2.take 2
          let buf3 := buf2.drop 2
          if flags.length ≠ 2 then []
          else if flags.getD 1 0 &&& 12 > 0 then
            parseFrameIter version fuel (buf3.drop size.toNat)
          else
            let value := buf3.take size.toNat
            if value.length ≠ size.toNat then []
            else ⟨id, decodeValue value⟩ :: parseFrameIter version fuel (buf3.drop size.toNat)
        else
          let value := buf2.take size.toNat
          if value.length ≠ size.toNat then []
          else ⟨id, decodeValue value⟩ :: parseFrameIter version fuel (buf2.drop size.toNat)

/-- The frame-parsing loop at its adequate fuel. -/
def parseFrameLoop (version : Nat) (buf : List Nat) : List Frame :=
  parseFrameIter version buf.length buf

/-- Models `Meta.parseFrames`.  The extended-header skip performs
`readLen` (which advances by 4 bytes) and then `Next(length - 4)`;
a negative count cannot occur for the inputs the claims cover. -/
def Meta.parseFrames (m : Meta) : Meta :=
  if m.noMeta || !m.buffered || m.readFrames then m
  else
    let rest0 := m.buffer.drop 3
    let version := rest0.headD 0
    let rest2 := rest0.drop 2
    let flags := rest2.headD 0
    let rest3 := rest2.drop 1
    let rest4 := rest3.drop 4
    let rest5 :=
      if version ≠ 2 ∧ flags &&& 64 > 0 then
        let elen := readLen rest4 version true
        (rest4.drop (lenBytesOf version true)).drop (elen - 4).toNat
      else rest4
    { m with frames := m.frames ++ parseFrameLoop version rest5 }

/-- Models `Meta.Buffered`, which can set `noMeta`, set `buffered` and
trigger the one-shot frame parse; it returns the flag together with the
updated state. -/
def Meta.Buffered (m : Meta) : Bool × Meta :=
  if m.buffered || m.noMeta then (true, m)
  else
    let len := m.length
    if len < 0 then (false, m)
    else if len = 0 then (true, { m with noMeta := true })
    else if (m.buffer.length : Int) < len then (false, m)
    else
      let m1 := { m with buffered := true }
      let m2 := m1.parseFrames
      (true, { m2 with readFrames := true })

/-- Models `Meta.Write`: consumed byte count, error value, updated state. -/
def Meta.Write (m : Meta) (p : List Nat) : Int × GoError × Meta :=
  let r := m.Buffered
  if r.1 then (0, .eof, r.2)
  else
    let m2 := { r.2 with buffer := r.2.buffer ++ p }
    let len := m2.length
    if len < 0 then (p.length, .nil, m2)
    else if len = 0 then (0, .nil, { m2 with buffer := [] })
    else if (m2.buffer.length : Int) ≤ len then (p.length, .nil, m2)
    else
      let need := len - ((m2.buffer.length : Int) - p.length)
      let m3 := { m2 with buffer := m2.buffer.take len.toNat }
      (need, .eof, m3.Buffered.2)

/-- Models `Meta.Version`. -/
def Meta.Version (m : Meta) : Nat :=
  if m.noMeta ∨ m.buffer.length < 4 then 0 else m.buffer.getD 3 0

/-- Models `Meta.GetValues`. -/
def Meta.GetValues (m : Meta) (id : List Nat) : List (List Nat) × Meta :=
  let r := m.Buffered
  if !r.1 then ([], r.2)
  else (((r.2.frames.filter (fun f => f.id == id)).map Frame.value), r.2)

/-- Models `Meta.SetValue`. -/
def Meta.SetValue (m : Meta) (id : List Nat) (value : List Nat) (multiple : Bool) : Meta :=
  let r := m.Buffered
  if !r.1 then r.2
  else
    let m1 := r.2
    if (m1.Version = 2 ∧ id.length ≠ 3) ∨ (m1.Version ≠ 2 ∧ id.length ≠ 4) then m1
    else
      let idU := id.map toUpperByte
      let frames1 := if multiple then m1.frames
        else m1.frames.filter (fun f => f.id ≠ idU)
      { m1 with frames := frames1 ++ [⟨idU, value⟩] }

/-- Per-frame serialization loop of `buildFrames`.  In meta.go the switch
statement shadows the `version` parameter with `m.Version()`, so the value
used throughout the loop is the buffered tag's own version. -/
def buildFramesLoop (version : Nat) : List Frame → List Nat
  | [] => []
  | f :: rest =>
    (if version = 2 then
      if f.id.length ≠ 3 then []
      else f.id.map toUpperByte ++ writeLen (f.value.length + 2) version false
        ++ [3] ++ f.value ++ [0]
    else
      if f.id.length ≠ 4 then []
      else f.id.map toUpperByte ++ writeLen (f.value.length + 2) version false
        ++ [0, 0] ++ [3] ++ f.value ++ [0])
    ++ buildFramesLoop version rest

/-- Models `Meta.buildFrames`.  The `version` parameter is shadowed inside
the Go switch by `m.Version()` and is therefore unused in the loop. -/
def Meta.buildFrames (m : Meta) (version : Nat) : Option (List Nat) × Meta :=
  let _ := version
  let r := m.Buffered
  if !r.1 then (none, r.2)
  else
    let bytes := buildFramesLoop r.2.Version r.2.frames
    if bytes.length = 0 then (none, r.2) else (some bytes, r.2)

/-- Models `Meta.Build`. -/
def Meta.Build (m : Meta) : Option (List Nat) × Meta :=
  let version := if m.Version = 0 then 4 else m.Version
  let r := m.buildFrames version
  match r.1 with
  | none => (none, r.2)
  | some frames =>
    (some (id3Magic ++ [version, 0, 0] ++ writeLen frames.length version true ++ frames), r.2)

/-- Feeds a list of chunks through successive `Write` calls, accumulating
the consumed counts. -/
def feedAll (m : Meta) : List (List Nat) → Int × Meta
  | [] => (0, m)
  | c :: rest =>
    let r := m.Write c
    let rr := feedAll r.2.2 rest
    (r.1 + rr.1, rr.2)

/-- Buffer-bound invariant: whenever the declared total tag length is
determinable and positive, the internal buffer holds at most that many
bytes. -/
def BufInv (m : Meta) : Prop :=
  0 < m.length → (m.buffer.length : Int) ≤ m.length

lemma parseFrames_buffer (m : Meta) : m.parseFrames.buffer = m.buffer := by
  unfold Meta.parseFrames; split <;> rfl

lemma parseFrames_noMeta (m : Meta) : m.parseFrames.noMeta = m.noMeta := by
  unfold Meta.parseFrames; split <;> rfl

lemma parseFrames_buffered (m : Meta) : m.parseFrames.buffered = m.buffered := by
  unfold Meta.parseFrames; split <;> rfl

lemma Buffered_buffer (m : Meta) : (m.Buffered).2.buffer = m.buffer := by
  simp only [Meta.Buffered]
  split_ifs <;> simp [parseFrames_buffer]

lemma Buffered_noMeta_of_ne (m : Meta) (h : m.length ≠ 0) :
    (m.Buffered).2.noMeta = m.noMeta := by
  simp only [Meta.Buffered]
  split_ifs <;> simp_all [parseFrames_noMeta]

lemma Buffered_of_buffered (m : Meta) (h : m.buffered = true) :
    m.Buffered = (true, m) := by
  unfold Meta.Buffered; simp [h]

lemma Buffered_of_noMeta (m : Meta) (h : m.noMeta = true) :
    m.Buffered = (true, m) := by
  unfold Meta.Buffered; simp [h]

lemma Buffered_false_state (m : Meta) (h : (m.Buffered).1 = false) :
    (m.Buffered).2 = m := by
  simp only [Meta.Buffered] at h ⊢
  split_ifs at h ⊢ <;> simp_all

/-! ## Synch-safe length arithmetic -/

lemma shiftLeft_lor_eq_add (x b k : Nat) (hb : b < 2 ^ k) :
    (x <<< k) ||| b = x * 2 ^ k + b :=
  calc (x <<< k) ||| b = (2 ^ k * x) ||| b := by rw [Nat.shiftLeft_eq, mul_comm]
    _ = 2 ^ k * x + b := (Nat.mul_add_lt_is_or hb x).symm
    _ = x * 2 ^ k + b := by ring_nf

lemma writeLen_4 (n : Nat) (h : Bool) : writeLen n 4 h =
    [(n >>> 21) &&& 127, (n >>> 14) &&& 127, (n >>> 7) &&& 127, (n >>> 0) &&& 127] := by
  simp [writeLen, List.range_succ]

lemma writeLen_length (n v : Nat) (h : Bool) :
    (writeLen n v h).length = lenBytesOf v h := by
  simp [writeLen, lenBytesOf]

lemma synchsafe4_decode (n : Nat) (hn : n < 2 ^ 28) (h : Bool) :
    readLenVal (writeLen n 4 h) 7 = n := by
  rw [writeLen_4]
  have hmask : ∀ x : Nat, x &&& 127 = x % 128 := fun x => by
    have h7 := Nat.and_pow_two_sub_one_eq_mod x 7
    norm_num at h7
    exact h7
  have h2 : ∀ x y : Nat, (x <<< 7) ||| (y % 128) = x * 128 + y % 128 := fun x y => by
    have := shiftLeft_lor_eq_add x (y % 128) 7 (by omega)
    simpa using this
  simp only [readLenVal, List.foldl, hmask, Nat.shiftRight_eq_div_pow]
  rw [h2, h2, h2, h2]
  norm_num
  omega

/-! ## Lemmas about `tagLen` -/

lemma lenBytesOf_header (v : Nat) : lenBytesOf v true = 4 := by simp [lenBytesOf]

lemma readLen_header_take (buf : List Nat) (v : Nat) :
    readLen buf v true = readLen (buf.take 4) v true := by
  simp [readLen, lenBytesOf, List.take_take]

lemma tagLen_take (bs : List Nat) (n : Nat) (h10 : 10 ≤ n) :
    tagLen (bs.take n) = tagLen bs := by
  rcases le_or_lt bs.length n with hle | hlt
  · rw [List.take_of_length_le hle]
  · have hlen : (bs.take n).length = n := by simp [List.length_take]; omega
    have h3 : (bs.take n).take 3 = bs.take 3 := by
      rw [List.take_take]; congr 1; omega
    have hg : (bs.take n).getD 3 0 = bs.getD 3 0 := by
      simp [List.getD_eq_getElem?_getD, List.getElem?_take, show (3:Nat) < n by omega]
    have hd : ((bs.take n).drop 6).take 4 = (bs.drop 6).take 4 := by
      rw [List.drop_take, List.take_take]
      congr 1
      omega
    have hrl : ∀ v : Nat, readLen ((bs.take n).drop 6) v true = readLen (bs.drop 6) v true := by
      intro v
      rw [readLen_header_take, hd, ← readLen_header_take]
    simp only [tagLen, hlen, h3, hg, hrl]
    split_ifs <;> omega

lemma tagLen_pos_ge10 (bs : List Nat) (h : 0 < tagLen bs) : 10 ≤ tagLen bs := by
  simp only [tagLen] at h ⊢
  split_ifs at h ⊢ <;> omega

lemma tagLen_nil : tagLen [] = -1 := by decide

lemma tagLen_lt3 (bs : List Nat) (h : bs.length < 3) : tagLen bs = -1 := by
  simp only [tagLen]
  split_ifs <;> omega

/-! ## Claim C4 -/

/-- C4: once `Buffered` reports true (the tag is Complete, or the stream was
recognized as carrying no tag), any further `Write` call returns consumed 0
together with the `io.EOF` error and leaves the buffered bytes unchanged. -/
theorem C4_terminal_write (m : Meta) (p : List Nat) (h : (m.Buffered).1 = true) :
    m.Write p = (0, GoError.eof, (m.Buffered).2) ∧
    (m.Write p).2.2.buffer = m.buffer := by
  have h1 : m.Write p = (0, GoError.eof, (m.Buffered).2) := by
    simp [Meta.Write, h]
  exact ⟨h1, by rw [h1]; exact Buffered_buffer m⟩

/-- Witness for C4 at a concrete terminal state. -/
theorem C4_terminal_write_witness :
    Meta.Write ⟨[], false, true, false, []⟩ [1, 2, 3]
      = (0, GoError.eof, (Meta.Buffered ⟨[], false, true, false, []⟩).2) ∧
    (Meta.Write ⟨[], false, true, false, []⟩ [1, 2, 3]).2.2.buffer
      = Meta.buffer ⟨[], false, true, false, []⟩ :=
  C4_terminal_write ⟨[], false, true, false, []⟩ [1, 2, 3] (by decide)

/-! ## Claim C7 -/

lemma buildFramesLoop_nil_of_bad (version : Nat) (fs : List Frame)
    (h : ∀ f ∈ fs, f.id.length ≠ idLenOf version) :
    buildFramesLoop version fs = [] := by
  induction fs with
  | nil => rfl
  | cons f t ih =>
    have hf := h f (by simp)
    have ht : buildFramesLoop version t = [] := ih (fun g hg => h g (by simp [hg]))
    simp only [buildFramesLoop, ht, List.append_nil]
    simp only [idLenOf] at hf
    split_ifs <;> simp_all

/-- C7: a Meta whose frame list is empty, or whose frames are all filtered
out by the id-width check, yields `none` from `Build` — a tag with zero
frames cannot be serialized. -/
theorem C7_empty_build (m : Meta) (hb : m.buffered = true) :
    (m.frames = [] → (m.Build).1 = none) ∧
    ((∀ f ∈ m.frames, f.id.length ≠ idLenOf m.Version) → (m.Build).1 = none) := by
  have hbf : m.Buffered = (true, m) := Buffered_of_buffered m hb
  constructor
  · intro hf
    simp [Meta.Build, Meta.buildFrames, hbf, hf, buildFramesLoop]
  · intro hf
    have h0 := buildFramesLoop_nil_of_bad m.Version m.frames hf
    simp [Meta.Build, Meta.buildFrames, hbf, h0]

/-- Witness for C7: a buffered Meta with no frames, and one whose only frame
has a 3-byte id under a v4 tag. -/
theorem C7_empty_build_witness :
    ((Meta.mk [73,68,51,4,0,0,0,0,0,0] true false true []).frames = [] →
      ((Meta.mk [73,68,51,4,0,0,0,0,0,0] true false true []).Build).1 = none) ∧
    ((∀ f ∈ (Meta.mk [73,68,51,4,0,0,0,0,0,0] true false true []).frames,
        f.id.length ≠ idLenOf (Meta.mk [73,68,51,4,0,0,0,0,0,0] true false true []).Version) →
      ((Meta.mk [73,68,51,4,0,0,0,0,0,0] true false true []).Build).1 = none) :=
  C7_empty_build (Meta.mk [73,68,51,4,0,0,0,0,0,0] true false true []) (by decide)

/-! ## Claim C3 -/

/-- C3 counterexample: feeding `"RIFF"` to a fresh Meta reports consumed 0
(no tag), but the very next `Write` call with two more bytes consumes 2
bytes, contradicting the claim that every subsequent call consumes 0. -/
theorem C3_counterexample :
    (metaInit.Write [82, 73, 70, 70]).1 = 0 ∧
    ((metaInit.Write [82, 73, 70, 70]).2.2.Write [65, 66]).1 = 2 ∧
    ((metaInit.Write [82, 73, 70, 70]).2.2.Write [65, 66]).1 ≠ 0 := by decide

/-- C3 amended: the first `Write` call that brings the buffered count to at
least 3 bytes without the `"ID3"` magic returns consumed 0 and empties the
buffer; detection then restarts from scratch, so a subsequent call with
fewer than 3 bytes is consumed in full and re-buffered (rather than being
rejected with consumed 0). -/
theorem C3_noTag_restart (m : Meta) (p : List Nat)
    (hb : m.buffered = false) (hnm : m.noMeta = false)
    (hlt : m.buffer.length < 3) (h3 : 3 ≤ m.buffer.length + p.length)
    (hmag : (m.buffer ++ p).take 3 ≠ id3Magic) :
    m.Write p = (0, GoError.nil, { m with buffer := [] }) ∧
    (∀ q : List Nat, q.length < 3 →
      ((m.Write p).2.2.Write q).1 = (q.length : Int) ∧
      ((m.Write p).2.2.Write q).2.2.buffer = q) := by
  have hneg : m.length < 0 := by
    simp [Meta.length, hnm, tagLen_lt3 m.buffer hlt]
  have hBuf : m.Buffered = (false, m) := by
    simp [Meta.Buffered, hb, hnm, hneg]
  have h0 : tagLen (m.buffer ++ p) = 0 := by
    simp only [tagLen]
    rw [if_neg (by simp only [List.length_append]; omega), if_pos hmag]
  have hres : m.Write p = (0, GoError.nil, { m with buffer := [] }) := by
    simp [Meta.Write, hBuf, Meta.length, hnm, h0]
  refine ⟨hres, fun q hq => ?_⟩
  rw [hres]
  have hres2 : ({ m with buffer := ([] : List Nat) } : Meta).Write q
      = ((q.length : Int), GoError.nil, { m with buffer := q }) := by
    simp [Meta.Write, Meta.Buffered, Meta.length, hb, hnm, tagLen_nil,
      tagLen_lt3 q hq]
  rw [hres2]
  exact ⟨rfl, rfl⟩

/-- Witness for C3's amended statement at the `"RIFF"` example. -/
theorem C3_noTag_restart_witness :
    metaInit.Write [82, 73, 70, 70] = (0, GoError.nil, { metaInit with buffer := [] }) ∧
    (((metaInit.Write [82, 73, 70, 70]).2.2.Write [65, 66]).1 = ((2 : Nat) : Int) ∧
      ((metaInit.Write [82, 73, 70, 70]).2.2.Write [65, 66]).2.2.buffer = [65, 66]) := by
  have h := C3_noTag_restart metaInit [82, 73, 70, 70]
    (by decide) (by decide) (by decide) (by decide) (by decide)
  exact ⟨h.1, h.2 [65, 66] (by decide)⟩

/-! ## Claims C6 and C10 -/

lemma filter_ne_filter_eq (l : List Frame) (id : List Nat) :
    (l.filter (fun f => f.id ≠ id)).filter (fun f => f.id == id) = [] := by
  induction l with
  | nil => rfl
  | cons f t ih => by_cases h : f.id = id <;> simp [h, ih]

lemma filter_ne_idem (l : List Frame) (id : List Nat) :
    (l.filter (fun f => f.id ≠ id)).filter (fun f => f.id ≠ id)
      = l.filter (fun f => f.id ≠ id) := by
  induction l with
  | nil => rfl
  | cons f t ih => by_cases h : f.id = id <;> simp [h, ih]

lemma filter_eq_nil_frames (l : List Frame) (id : List Nat)
    (h : ∀ f ∈ l, f.id ≠ id) : l.filter (fun f => f.id == id) = [] := by
  induction l with
  | nil => rfl
  | cons f t ih =>
    have := h f (by simp)
    simp [this, ih (fun g hg => h g (by simp [hg]))]

/-- Version is unaffected by replacing the frame list. -/
lemma Version_set_frames (m : Meta) (F : List Frame) :
    ({ m with frames := F } : Meta).Version = m.Version := by
  simp [Meta.Version]

/-- Buffered is the identity on an already-buffered state, also after
replacing the frame list. -/
lemma Buffered_set_frames (m : Meta) (F : List Frame) (hb : m.buffered = true) :
    ({ m with frames := F } : Meta).Buffered = (true, { m with frames := F }) :=
  Buffered_of_buffered _ hb

/-- C6: with a fully buffered tag, two singleton `SetValue` calls on the
same id leave exactly one frame with that id holding the second value; two
repeatable calls append both values in order; and an id of the wrong width
for the tag's version is a no-op.  The first two parts restrict the id to
ASCII bytes already in uppercase form, the domain on which the byte-wise
model of `strings.ToUpper` coincides with Go (the claim's example ids TIT2
and COMM are such ids; lowercase ids are C10's subject); the no-op part
needs no such restriction because the width check precedes uppercasing. -/
theorem C6_singleton_repeatable (m : Meta) (hb : m.buffered = true) :
    (∀ id v1 v2 : List Nat,
      (∀ c ∈ id, c < 128) →
      ((m.Version = 2 ∧ id.length = 3) ∨ (m.Version ≠ 2 ∧ id.length = 4)) →
      id.map toUpperByte = id →
      ((m.SetValue id v1 false).SetValue id v2 false).frames.filter (fun f => f.id == id)
        = [⟨id, v2⟩]) ∧
    (∀ id a b : List Nat,
      (∀ c ∈ id, c < 128) →
      ((m.Version = 2 ∧ id.length = 3) ∨ (m.Version ≠ 2 ∧ id.length = 4)) →
      id.map toUpperByte = id →
      m.frames.filter (fun f => f.id == id) = [] →
      ((m.SetValue id a true).SetValue id b true).frames.filter (fun f => f.id == id)
        = [⟨id, a⟩, ⟨id, b⟩]) ∧
    (∀ (id v : List Nat) (mult : Bool),
      ((m.Version = 2 ∧ id.length ≠ 3) ∨ (m.Version ≠ 2 ∧ id.length ≠ 4)) →
      m.SetValue id v mult = m) := by
  have hbf : m.Buffered = (true, m) := Buffered_of_buffered m hb
  refine ⟨?_, ?_, ?_⟩
  · intro id v1 v2 _ hw hup
    have hne : ¬((m.Version = 2 ∧ id.length ≠ 3) ∨ (m.Version ≠ 2 ∧ id.length ≠ 4)) := by
      rcases hw with ⟨h1, h2⟩ | ⟨h1, h2⟩ <;> simp [h1, h2]
    have e1 : m.SetValue id v1 false
        = { m with frames := m.frames.filter (fun f => f.id ≠ id) ++ [⟨id, v1⟩] } := by
      simp [Meta.SetValue, hbf, hne, hup]
    have hbf2 : ({ m with frames := m.frames.filter (fun f => f.id ≠ id)
          ++ [⟨id, v1⟩] } : Meta).Buffered
        = (true, { m with frames := m.frames.filter (fun f => f.id ≠ id) ++ [⟨id, v1⟩] }) :=
      Buffered_of_buffered _ hb
    have e2 : ({ m with frames := m.frames.filter (fun f => f.id ≠ id)
          ++ [⟨id, v1⟩] } : Meta).SetValue id v2 false
        = { m with frames := ((m.frames.filter (fun f => f.id ≠ id)
            ++ [(⟨id, v1⟩ : Frame)]).filter (fun f => f.id ≠ id)) ++ [(⟨id, v2⟩ : Frame)] } := by
      simp only [Meta.SetValue, hbf2, Version_set_frames]
      simp [hne, hup]
    rw [e1, e2]
    simp only [List.filter_append, filter_ne_idem]
    simp [filter_ne_filter_eq]
  · intro id a b _ hw hup hnone
    have hne : ¬((m.Version = 2 ∧ id.length ≠ 3) ∨ (m.Version ≠ 2 ∧ id.length ≠ 4)) := by
      rcases hw with ⟨h1, h2⟩ | ⟨h1, h2⟩ <;> simp [h1, h2]
    have e1 : m.SetValue id a true = { m with frames := m.frames ++ [⟨id, a⟩] } := by
      simp [Meta.SetValue, hbf, hne, hup]
    have hbf2 : ({ m with frames := m.frames ++ [⟨id, a⟩] } : Meta).Buffered
        = (true, { m with frames := m.frames ++ [⟨id, a⟩] }) :=
      Buffered_of_buffered _ hb
    have e2 : ({ m with frames := m.frames ++ [⟨id, a⟩] } : Meta).SetValue id b true
        = { m with frames := (m.frames ++ [⟨id, a⟩]) ++ [⟨id, b⟩] } := by
      simp only [Meta.SetValue, hbf2, Version_set_frames]
      simp [hne, hup]
    rw [e1, e2]
    simp [List.filter_append, hnone]
  · intro id v mult hcond
    simp [Meta.SetValue, hbf, hcond]

/-- Witness for C6 at a buffered v4 tag with concrete ids TIT2, COMM and a
3-byte id under version 4. -/
theorem C6_singleton_repeatable_witness :
    ((((Meta.mk [73,68,51,4,0,0,0,0,0,0] true false true []).SetValue
        [84,73,84,50] [88] false).SetValue [84,73,84,50] [89] false).frames.filter
          (fun f => f.id == [84,73,84,50]) = [⟨[84,73,84,50], [89]⟩]) ∧
    ((((Meta.mk [73,68,51,4,0,0,0,0,0,0] true false true []).SetValue
        [67,79,77,77] [65] true).SetValue [67,79,77,77] [66] true).frames.filter
          (fun f => f.id == [67,79,77,77]) = [⟨[67,79,77,77], [65]⟩, ⟨[67,79,77,77], [66]⟩]) ∧
    ((Meta.mk [73,68,51,4,0,0,0,0,0,0] true false true []).SetValue [84,73,84] [88] false
      = Meta.mk [73,68,51,4,0,0,0,0,0,0] true false true []) := by
  have h := C6_singleton_repeatable (Meta.mk [73,68,51,4,0,0,0,0,0,0] true false true [])
    (by decide)
  exact ⟨h.1 [84,73,84,50] [88] [89] (by decide) (by decide) (by decide),
    h.2.1 [67,79,77,77] [65] [66] (by decide) (by decide) (by decide) (by decide),
    h.2.2 [84,73,84] [88] false (by decide)⟩

/-- C10: with a fully buffered tag and an id of the right width containing
lowercase letters, `SetValue` appends the frame under the uppercased id,
`GetValues` with the original lowercase id finds nothing, and only the
uppercased id retrieves the stored value.  The id is restricted to ASCII
bytes, the domain on which the byte-wise model of `strings.ToUpper`
coincides with Go (Go additionally remaps non-ASCII runes, e.g. é → É);
the claim's example id "tit2" is ASCII. -/
theorem C10_case_normalization (m : Meta) (id v : List Nat) (mult : Bool)
    (hb : m.buffered = true)
    (hascii : ∀ c ∈ id, c < 128)
    (hw : (m.Version = 2 ∧ id.length = 3) ∨ (m.Version ≠ 2 ∧ id.length = 4))
    (hlow : id.map toUpperByte ≠ id)
    (hnone : ∀ f ∈ m.frames, f.id ≠ id) :
    (m.SetValue id v mult).frames.getLast? = some ⟨id.map toUpperByte, v⟩ ∧
    ((m.SetValue id v mult).GetValues id).1 = [] ∧
    v ∈ ((m.SetValue id v mult).GetValues (id.map toUpperByte)).1 := by
  have hbf : m.Buffered = (true, m) := Buffered_of_buffered m hb
  have hne : ¬((m.Version = 2 ∧ id.length ≠ 3) ∨ (m.Version ≠ 2 ∧ id.length ≠ 4)) := by
    rcases hw with ⟨h1, h2⟩ | ⟨h1, h2⟩ <;> simp [h1, h2]
  have e1 : m.SetValue id v mult
      = { m with frames :=
          (if mult then m.frames else m.frames.filter (fun f => f.id ≠ id.map toUpperByte))
            ++ [⟨id.map toUpperByte, v⟩] } := by
    simp [Meta.SetValue, hbf, hne]
  have hmem : ∀ f ∈ (if mult then m.frames
      else m.frames.filter (fun f => f.id ≠ id.map toUpperByte)), f.id ≠ id := by
    intro f hf
    rcases mult with _ | _
    · simp only [Bool.false_eq_true, if_neg] at hf
      exact hnone f (List.mem_of_mem_filter hf)
    · simp only [if_pos] at hf
      exact hnone f hf
  have hbf1 : ({ m with frames :=
        (if mult then m.frames else m.frames.filter (fun f => f.id ≠ id.map toUpperByte))
          ++ [⟨id.map toUpperByte, v⟩] } : Meta).Buffered
      = (true, { m with frames :=
          (if mult then m.frames else m.frames.filter (fun f => f.id ≠ id.map toUpperByte))
            ++ [⟨id.map toUpperByte, v⟩] }) :=
    Buffered_of_buffered _ hb
  refine ⟨?_, ?_, ?_⟩
  · rw [e1]
    exact List.getLast?_concat _
  · rw [e1]
    simp only [Meta.GetValues, hbf1]
    simp only [List.filter_append]
    rw [filter_eq_nil_frames _ _ hmem]
    simp [hlow]
  · rw [e1]
    simp only [Meta.GetValues, hbf1]
    simp [List.filter_append, List.mem_map]

/-- Witness for C10 at id `"tit2"` over a buffered v4 tag. -/
theorem C10_case_normalization_witness :
    (((Meta.mk [73,68,51,4,0,0,0,0,0,0] true false true []).SetValue
        [116,105,116,50] [88] false).frames.getLast? = some ⟨[84,73,84,50], [88]⟩) ∧
    ((((Meta.mk [73,68,51,4,0,0,0,0,0,0] true false true []).SetValue
        [116,105,116,50] [88] false).GetValues [116,105,116,50]).1 = []) ∧
    [88] ∈ (((Meta.mk [73,68,51,4,0,0,0,0,0,0] true false true []).SetValue
        [116,105,116,50] [88] false).GetValues [84,73,84,50]).1 := by
  have h := C10_case_normalization (Meta.mk [73,68,51,4,0,0,0,0,0,0] true false true [])
    [116,105,116,50] [88] false (by decide) (by decide) (by decide) (by decide) (by decide)
  exact ⟨h.1, h.2.1, h.2.2⟩

/-! ## Claim C8 -/

lemma BufInv_Buffered (m : Meta) (h : BufInv m) : BufInv (m.Buffered).2 := by
  simp only [Meta.Buffered]
  split_ifs with h1 h2 h3 h4
  · exact h
  · exact h
  · intro hpos
    simp [Meta.length] at hpos
  · exact h
  · unfold BufInv at h ⊢
    simpa [Meta.length, parseFrames_noMeta, parseFrames_buffer] using h

/-- C8: the buffer-bound invariant holds initially and is preserved by every
`Write` call — whenever the declared total tag length is determinable and
positive, the buffer retains at most that many bytes, the truncation
happening in the same call that would first exceed the bound. -/
theorem C8_buffer_bound :
    BufInv metaInit ∧ ∀ (m : Meta) (p : List Nat), BufInv m → BufInv (m.Write p).2.2 := by
  constructor
  · intro hpos
    simp [metaInit, Meta.length, tagLen_nil] at hpos
  · intro m p h
    by_cases hb : (m.Buffered).1 = true
    · have hw : m.Write p = (0, GoError.eof, (m.Buffered).2) := by
        simp [Meta.Write, hb]
      rw [hw]
      exact BufInv_Buffered m h
    · have hb1 : (m.Buffered).1 = false := by simpa using hb
      have hst := Buffered_false_state m hb1
      simp only [Meta.Write, hb1, hst, Bool.false_eq_true, if_false]
      split_ifs with h1 h2 h3
      · unfold BufInv
        dsimp only
        intro hpos
        omega
      · unfold BufInv
        dsimp only
        intro hpos
        simp only [Meta.length] at hpos
        split_ifs at hpos <;> simp [tagLen_nil] at hpos
      · unfold BufInv
        dsimp only
        intro _
        exact h3
      · dsimp only
        apply BufInv_Buffered
        have hnm : m.noMeta = false := by
          by_contra hc
          have hc1 : m.noMeta = true := by simpa using hc
          have h0 : ({ m with buffer := m.buffer ++ p } : Meta).length = 0 := by
            simp [Meta.length, hc1]
          omega
        have hlen2 : ({ m with buffer := m.buffer ++ p } : Meta).length
            = tagLen (m.buffer ++ p) := by
          simp [Meta.length, hnm]
        have hpos2 : 0 < tagLen (m.buffer ++ p) := by
          rw [hlen2] at h1 h2
          omega
        have h10 : 10 ≤ tagLen (m.buffer ++ p) := tagLen_pos_ge10 _ hpos2
        rw [hlen2] at h3 ⊢
        have htk : tagLen ((m.buffer ++ p).take (tagLen (m.buffer ++ p)).toNat)
            = tagLen (m.buffer ++ p) := tagLen_take _ _ (by omega)
        unfold BufInv
        intro _
        have hll : ({ m with buffer :=
              (m.buffer ++ p).take (tagLen (m.buffer ++ p)).toNat } : Meta).length
            = tagLen (m.buffer ++ p) := by
          simp only [Meta.length]
          rw [if_neg (by simp [hnm])]
          exact htk
        rw [hll]
        dsimp only
        simp only [List.length_take]
        omega

/-- Witness for C8: the invariant transported across one concrete call. -/
theorem C8_buffer_bound_witness :
    BufInv metaInit ∧
    BufInv ((metaInit.Write [73, 68, 51, 4, 0, 0, 0, 0, 0, 3, 9, 9, 9, 9, 9]).2.2) := by
  have h := C8_buffer_bound
  exact ⟨h.1, h.2 metaInit [73, 68, 51, 4, 0, 0, 0, 0, 0, 3, 9, 9, 9, 9, 9] h.1⟩

/-! ## Parse-loop machinery -/

lemma idLenOf_ge3 (version : Nat) : 3 ≤ idLenOf version := by
  unfold idLenOf
  split <;> omega

lemma parseFrameIter_fuel_eq (version : Nat) :
    ∀ (l : Nat) (buf : List Nat) (f : Nat), buf.length = l → l ≤ f →
      parseFrameIter version f buf = parseFrameIter version l buf := by
  intro l
  induction l using Nat.strong_induction_on with
  | _ l ih =>
    intro buf f hlen hf
    rcases l with _ | l0
    · have hb : buf = [] := List.eq_nil_of_length_eq_zero hlen
      subst hb
      cases f <;> simp [parseFrameIter]
    · rcases f with _ | f0
      · omega
      · have h3 := idLenOf_ge3 version
        have bridge : ∀ X : List Nat, X.length ≤ l0 →
            parseFrameIter version f0 X = parseFrameIter version l0 X := by
          intro X hX
          calc parseFrameIter version f0 X = parseFrameIter version X.length X :=
                ih X.length (by omega) X f0 rfl (by omega)
            _ = parseFrameIter version l0 X :=
                (ih X.length (by omega) X l0 rfl hX).symm
        simp only [parseFrameIter]
        repeat' split
        all_goals first
          | rfl
          | (exact bridge _ (by simp only [List.length_drop]; omega))
          | (congr 1
             exact bridge _ (by simp only [List.length_drop]; omega))

lemma parseFrameLoop_fuel (version f : Nat) (buf : List Nat) (hf : buf.length ≤ f) :
    parseFrameIter version f buf = parseFrameLoop version buf :=
  parseFrameIter_fuel_eq version buf.length buf f rfl hf

lemma lenBytesOf_4false : lenBytesOf 4 false = 4 := by simp [lenBytesOf]

lemma lenWidthOf_4false : lenWidthOf 4 false = 7 := by simp [lenWidthOf]

lemma readLen_writeLen4 (V rest : List Nat) (hV28 : V.length < 2 ^ 28) :
    readLen (writeLen V.length 4 false ++ rest) 4 false = (V.length : Int) := by
  have hW : (writeLen V.length 4 false).length = 4 := by
    rw [writeLen_length, lenBytesOf_4false]
  simp only [readLen, lenBytesOf_4false, lenWidthOf_4false, List.take_left' hW, hW]
  simp [synchsafe4_decode V.length hV28 false]

/-- Parsing a well-formed v4 frame block peels off exactly one frame. -/
lemma parse4_cons (id V rest : List Nat)
    (hid : id.length = 4) (hvalid : id.all validIDChar = true)
    (hV1 : 1 ≤ V.length) (hV28 : V.length < 2 ^ 28) :
    parseFrameLoop 4 (id ++ (writeLen V.length 4 false ++ (0 :: 0 :: (V ++ rest))))
      = ⟨id, decodeValue V⟩ :: parseFrameLoop 4 rest := by
  have hW : (writeLen V.length 4 false).length = 4 := by
    rw [writeLen_length, lenBytesOf_4false]
  have hBlen : (id ++ (writeLen V.length 4 false ++ (0 :: 0 :: (V ++ rest)))).length
      = 10 + (V.length + rest.length) := by
    simp only [List.length_append, List.length_cons, hid, hW]
    omega
  obtain ⟨n, hn⟩ : ∃ n, (id ++ (writeLen V.length 4 false ++ (0 :: 0 :: (V ++ rest)))).length
      = n + 1 := ⟨9 + (V.length + rest.length), by omega⟩
  have hrest : rest.length ≤ n := by omega
  unfold parseFrameLoop
  rw [hn]
  simp only [parseFrameIter]
  have hne : (id ++ (writeLen V.length 4 false ++ (0 :: 0 :: (V ++ rest)))).isEmpty = false := by
    have hc : (id ++ (writeLen V.length 4 false ++ (0 :: 0 :: (V ++ rest)))) ≠ [] := by
      intro hc
      rw [hc] at hBlen
      simp at hBlen
      omega
    simpa [List.isEmpty_iff] using hc
  have hrid : readID (id ++ (writeLen V.length 4 false ++ (0 :: 0 :: (V ++ rest)))) 4
      = some id := by
    have ht : (id ++ (writeLen V.length 4 false ++ (0 :: 0 :: (V ++ rest)))).take 4 = id :=
      List.take_left' hid
    simp [readID, idLenOf, ht, hid, hvalid]
  have hd1 : (id ++ (writeLen V.length 4 false ++ (0 :: 0 :: (V ++ rest)))).drop (idLenOf 4)
      = writeLen V.length 4 false ++ (0 :: 0 :: (V ++ rest)) := by
    have h4 : idLenOf 4 = 4 := by simp [idLenOf]
    rw [h4]
    exact List.drop_left' hid
  have hsize := readLen_writeLen4 V (0 :: 0 :: (V ++ rest)) hV28
  have hd2 : (writeLen V.length 4 false ++ (0 :: 0 :: (V ++ rest))).drop (lenBytesOf 4 false)
      = 0 :: 0 :: (V ++ rest) := by
    rw [lenBytesOf_4false]
    exact List.drop_left' hW
  have hnpos : ¬ ((V.length : Int) ≤ 0) := by omega
  have htoNat : ((V.length : Int)).toNat = V.length := by omega
  have htake : (V ++ rest).take V.length = V := List.take_left' rfl
  have hdropV : (V ++ rest).drop V.length = rest := List.drop_left' rfl
  simp [hne, hrid, hd1, hsize, hd2, hnpos, htoNat, htake, hdropV,
    parseFrameLoop_fuel 4 n rest hrest]
  rfl

lemma toUpperByte_valid (c : Nat) (h : validIDChar c = true) : toUpperByte c = c := by
  simp only [validIDChar, Bool.not_eq_eq_eq_not, Bool.not_true] at h
  simp only [toUpperByte]
  rw [if_neg]
  intro hc
  simp at h
  omega

lemma map_toUpper_valid (id : List Nat) (h : id.all validIDChar = true) :
    id.map toUpperByte = id := by
  induction id with
  | nil => rfl
  | cons c t ih =>
    simp only [List.all_cons, Bool.and_eq_true] at h
    simp [toUpperByte_valid c h.1, ih h.2]

lemma trim_concat (v : List Nat) : trimSuffixNul (v ++ [0]) = v := by
  simp [trimSuffixNul, List.getLast?_concat, List.dropLast_concat]

lemma decode3 (w : List Nat) : decodeValue (3 :: w) = trimSuffixNul w := rfl

/-- Round-trip of the v4 frame serializer and parser over a frame list. -/
lemma buildFramesLoop4_parse (fs : List Frame)
    (hids : ∀ f ∈ fs, f.id.length = 4 ∧ f.id.all validIDChar = true)
    (hsz : ∀ f ∈ fs, f.value.length + 2 < 2 ^ 28) :
    parseFrameLoop 4 (buildFramesLoop 4 fs) = fs := by
  induction fs with
  | nil => rfl
  | cons f t ih =>
    obtain ⟨hid4, hvalid⟩ := hids f (by simp)
    have hup : f.id.map toUpperByte = f.id := map_toUpper_valid f.id hvalid
    have hV1 : 1 ≤ (3 :: (f.value ++ [0])).length := by simp
    have hVlen : (3 :: (f.value ++ [0])).length = f.value.length + 2 := by simp
    have hV28 : (3 :: (f.value ++ [0])).length < 2 ^ 28 := by
      rw [hVlen]
      have := hsz f (by simp)
      omega
    have hkey := parse4_cons f.id (3 :: (f.value ++ [0])) (buildFramesLoop 4 t)
      hid4 hvalid hV1 hV28
    rw [hVlen] at hkey
    have hshape : buildFramesLoop 4 (f :: t)
        = f.id ++ (writeLen (f.value.length + 2) 4 false
            ++ (0 :: 0 :: ((3 :: (f.value ++ [0])) ++ buildFramesLoop 4 t))) := by
      simp only [buildFramesLoop]
      rw [if_neg (by decide), if_neg (by simp [hid4]), hup]
      simp [List.append_assoc]
    rw [hshape, hkey, decode3, trim_concat]
    rw [ih (fun g hg => hids g (by simp [hg])) (fun g hg => hsz g (by simp [hg]))]

/-! ## Feeding a complete built tag -/

lemma tagLen_header (ver : Nat) (L4 body : List Nat) (hL4 : L4.length = 4) :
    tagLen (73 :: 68 :: 51 :: ver :: 0 :: 0 :: (L4 ++ body))
      = (readLenVal L4 7 : Int) + 10 := by
  have htake : (73 :: 68 :: 51 :: ver :: 0 :: 0 :: (L4 ++ body)).take 3 = id3Magic := rfl
  have hlen : 6 + (L4 ++ body).length = (73 :: 68 :: 51 :: ver :: 0 :: 0 :: (L4 ++ body)).length := by
    simp
    omega
  have hdrop : (73 :: 68 :: 51 :: ver :: 0 :: 0 :: (L4 ++ body)).drop 6 = L4 ++ body := rfl
  have hrl : readLen (L4 ++ body) ver true = (readLenVal L4 7 : Int) := by
    have h4 : lenBytesOf ver true = 4 := by simp [lenBytesOf]
    have h7 : lenWidthOf ver true = 7 := by simp [lenWidthOf]
    simp only [readLen, h4, h7, List.take_left' hL4, hL4]
    simp
  simp only [tagLen, hdrop, hrl]
  rw [if_neg (by simp), if_neg (by simp [htake]), if_neg (by simp)]
  have hg : (73 :: 68 :: 51 :: ver :: 0 :: 0 :: (L4 ++ body)).getD 3 0 = ver := rfl
  rw [hg]
  rw [if_neg (by omega)]
  rw [hrl]

lemma write_full (b : List Nat) (hT : tagLen b = (b.length : Int)) (hpos : 0 < tagLen b) :
    metaInit.Write b = ((b.length : Int), GoError.nil, ⟨b, false, false, false, []⟩) := by
  have hB : metaInit.Buffered = (false, metaInit) := by decide
  have hlen : ({ metaInit with buffer := metaInit.buffer ++ b } : Meta).length = tagLen b := by
    simp [Meta.length, metaInit]
  simp only [Meta.Write, hB, Bool.false_eq_true, if_false, hlen]
  rw [if_neg (by omega), if_neg (by omega)]
  rw [if_pos (by simp [metaInit]; omega)]
  simp [metaInit]

/-- Feeding a complete built tag and querying values: the frames are exactly
those parsed from the body region. -/
lemma feed_getValues (ver : Nat) (L4 body id : List Nat) (hL4 : L4.length = 4)
    (hrl : readLenVal L4 7 = body.length) :
    (((metaInit.Write (73 :: 68 :: 51 :: ver :: 0 :: 0 :: (L4 ++ body))).2.2).GetValues id).1
      = ((parseFrameLoop ver body).filter (fun f => f.id == id)).map Frame.value := by
  have hblen : (73 :: 68 :: 51 :: ver :: 0 :: 0 :: (L4 ++ body)).length = 10 + body.length := by
    simp [hL4]
    omega
  have hT : tagLen (73 :: 68 :: 51 :: ver :: 0 :: 0 :: (L4 ++ body))
      = ((73 :: 68 :: 51 :: ver :: 0 :: 0 :: (L4 ++ body)).length : Int) := by
    rw [tagLen_header ver L4 body hL4, hrl, hblen]
    omega
  have hpos : 0 < tagLen (73 :: 68 :: 51 :: ver :: 0 :: 0 :: (L4 ++ body)) := by
    rw [hT, hblen]
    omega
  rw [write_full _ hT hpos]
  have hparse : (⟨73 :: 68 :: 51 :: ver :: 0 :: 0 :: (L4 ++ body), true, false, false, []⟩
        : Meta).parseFrames
      = ⟨73 :: 68 :: 51 :: ver :: 0 :: 0 :: (L4 ++ body), true, false, false,
          parseFrameLoop ver body⟩ := by
    have hd4 : (L4 ++ body).drop 4 = body := List.drop_left' hL4
    simp [Meta.parseFrames, hd4]
  have hbuf : (⟨73 :: 68 :: 51 :: ver :: 0 :: 0 :: (L4 ++ body), false, false, false, []⟩
        : Meta).Buffered
      = (true, ⟨73 :: 68 :: 51 :: ver :: 0 :: 0 :: (L4 ++ body), true, false, true,
          parseFrameLoop ver body⟩) := by
    have hlen : (⟨73 :: 68 :: 51 :: ver :: 0 :: 0 :: (L4 ++ body), false, false, false, []⟩
        : Meta).length = tagLen (73 :: 68 :: 51 :: ver :: 0 :: 0 :: (L4 ++ body)) := by
      simp [Meta.length]
    simp only [Meta.Buffered, hlen]
    rw [if_neg (by simp), if_neg (by omega), if_neg (by omega)]
    rw [if_neg (by rw [hT]; simp)]
    simp [hparse]
  simp [Meta.GetValues, hbuf]

/-! ## Claim C1 -/

lemma buildFramesLoop4_ne_nil (f : Frame) (t : List Frame) (hid : f.id.length = 4) :
    buildFramesLoop 4 (f :: t) ≠ [] := by
  simp only [buildFramesLoop]
  rw [if_neg (by decide), if_neg (by simp [hid])]
  intro hc
  have := congrArg List.length hc
  simp [hid] at this

lemma buildFramesLoop4_mem_le (fs : List Frame) (f : Frame)
    (hids : ∀ g ∈ fs, g.id.length = 4) (hf : f ∈ fs) :
    f.value.length + 12 ≤ (buildFramesLoop 4 fs).length := by
  induction fs with
  | nil => cases hf
  | cons g t ih =>
    have hgid : g.id.length = 4 := hids g (by simp)
    have hblock : (buildFramesLoop 4 (g :: t)).length
        = (g.value.length + 12) + (buildFramesLoop 4 t).length := by
      simp only [buildFramesLoop]
      rw [if_neg (by decide), if_neg (by simp [hgid])]
      have hwl : (writeLen (g.value.length + 2) 4 false).length = 4 := by
        rw [writeLen_length, lenBytesOf_4false]
      simp [hgid, hwl]
      omega
    rcases List.mem_cons.mp hf with hfg | hft
    · subst hfg
      omega
    · have := ih (fun g1 hg1 => hids g1 (by simp [hg1])) hft
      omega

/-- C1: a version-4 store round-trips — feeding the bytes returned by
`Build` into a fresh Meta and parsing reproduces, for every frame id, the
same `GetValues` results as the original store.  The frame list is
non-empty, its ids are valid 4-byte ids, the values carry no trailing NUL,
and the serialized frames fit in a 28-bit synch-safe length. -/
theorem C1_roundtrip (m : Meta) (id : List Nat)
    (hb : m.buffered = true) (hver : m.Version = 4)
    (hne : m.frames ≠ [])
    (hids : ∀ f ∈ m.frames, f.id.length = 4 ∧ f.id.all validIDChar = true)
    (hnul : ∀ f ∈ m.frames, f.value.getLast? ≠ some 0)
    (htot : (buildFramesLoop 4 m.frames).length < 2 ^ 28) :
    (m.Build).1 ≠ none ∧
    (((metaInit.Write ((m.Build).1.getD [])).2.2).GetValues id).1 = (m.GetValues id).1 := by
  have hbf : m.Buffered = (true, m) := Buffered_of_buffered m hb
  have hsz : ∀ f ∈ m.frames, f.value.length + 2 < 2 ^ 28 := by
    intro f hf
    have := buildFramesLoop4_mem_le m.frames f (fun g hg => (hids g hg).1) hf
    omega
  have hfne : buildFramesLoop 4 m.frames ≠ [] := by
    rcases hfr : m.frames with _ | ⟨f, t⟩
    · exact absurd hfr hne
    · exact buildFramesLoop4_ne_nil f t ((hids f (by rw [hfr]; simp)).1)
  have hBuild : (m.Build).1
      = some (id3Magic ++ [4, 0, 0] ++ writeLen (buildFramesLoop 4 m.frames).length 4 true
          ++ buildFramesLoop 4 m.frames) := by
    have hlen0 : ¬ ((buildFramesLoop 4 m.frames).length = 0) := by
      simpa [List.length_eq_zero] using hfne
    simp [Meta.Build, Meta.buildFrames, hbf, hver, hlen0]
  refine ⟨by rw [hBuild]; simp, ?_⟩
  rw [hBuild]
  simp only [Option.getD_some]
  have hW4 : (writeLen (buildFramesLoop 4 m.frames).length 4 true).length = 4 := by
    rw [writeLen_length]
    simp [lenBytesOf]
  have hshape : id3Magic ++ [4, 0, 0]
        ++ writeLen (buildFramesLoop 4 m.frames).length 4 true ++ buildFramesLoop 4 m.frames
      = 73 :: 68 :: 51 :: 4 :: 0 :: 0 ::
          (writeLen (buildFramesLoop 4 m.frames).length 4 true ++ buildFramesLoop 4 m.frames) := by
    simp [id3Magic]
  rw [hshape]
  rw [feed_getValues 4 (writeLen (buildFramesLoop 4 m.frames).length 4 true)
    (buildFramesLoop 4 m.frames) id hW4 (synchsafe4_decode _ htot true)]
  rw [buildFramesLoop4_parse m.frames hids hsz]
  simp [Meta.GetValues, hbf]

/-- Witness for C1 at the store {TIT2:"X", TALB:"Y", TRCK:"3"} under a v4
tag, queried at id TIT2. -/
theorem C1_roundtrip_witness :
    ((Meta.mk [73,68,51,4,0,0,0,0,0,0] true false true
        [⟨[84,73,84,50],[88]⟩, ⟨[84,65,76,66],[89]⟩, ⟨[84,82,67,75],[51]⟩]).Build).1 ≠ none ∧
    (((metaInit.Write ((((Meta.mk [73,68,51,4,0,0,0,0,0,0] true false true
        [⟨[84,73,84,50],[88]⟩, ⟨[84,65,76,66],[89]⟩, ⟨[84,82,67,75],[51]⟩]).Build)).1.getD
          [])).2.2).GetValues [84,73,84,50]).1
      = (((Meta.mk [73,68,51,4,0,0,0,0,0,0] true false true
        [⟨[84,73,84,50],[88]⟩, ⟨[84,65,76,66],[89]⟩, ⟨[84,82,67,75],[51]⟩]).GetValues
          [84,73,84,50])).1 :=
  C1_roundtrip (Meta.mk [73,68,51,4,0,0,0,0,0,0] true false true
      [⟨[84,73,84,50],[88]⟩, ⟨[84,65,76,66],[89]⟩, ⟨[84,82,67,75],[51]⟩]) [84,73,84,50]
    (by decide) (by decide) (by decide) (by decide) (by decide) (by decide)

/-! ## Claim C9 -/

lemma tagLen_take_lt10 (s : List Nat) (n : Nat) (hmag : s.take 3 = id3Magic)
    (hn : n ≤ s.length) (h10 : n < 10) : tagLen (s.take n) = -1 := by
  rcases lt_or_ge n 3 with h3 | h3
  · exact tagLen_lt3 _ (by simp [List.length_take]; omega)
  · have hlen : (s.take n).length = n := by
      rw [List.length_take]
      omega
    have ht3 : (s.take n).take 3 = id3Magic := by
      rw [List.take_take, Nat.min_eq_left h3, hmag]
    rcases lt_or_ge n 6 with h6 | h6
    · simp only [tagLen, hlen, ht3]
      rw [if_neg (by omega), if_neg (by simp), if_pos (by omega)]
    · have hr : ∀ v, readLen ((s.take n).drop 6) v true = -1 := by
        intro v
        simp only [readLen]
        rw [if_pos]
        simp only [List.length_take, List.length_drop, hlen, lenBytesOf]
        simp
        omega
      simp only [tagLen, hlen, ht3, hr]
      rw [if_neg (by omega), if_neg (by simp), if_neg (by omega), if_pos (by norm_num)]

lemma tagLen_pos_of_magic (s : List Nat) (hmag : s.take 3 = id3Magic)
    (h10 : 10 ≤ s.length) : 0 < tagLen s := by
  have hr : 0 ≤ readLen (s.drop 6) (s.getD 3 0) true := by
    simp only [readLen]
    rw [if_neg]
    · exact Int.natCast_nonneg _
    · simp only [List.length_take, List.length_drop, lenBytesOf]
      simp
      omega
  simp only [tagLen]
  rw [if_neg (by omega), if_neg (by simp [hmag]), if_neg (by omega)]
  rw [if_neg (by omega)]
  omega

lemma Buffered_false_of_partial (m : Meta) (hb : m.buffered = false) (hnm : m.noMeta = false)
    (h : m.length < 0 ∨ (0 < m.length ∧ (m.buffer.length : Int) < m.length)) :
    m.Buffered = (false, m) := by
  simp only [Meta.Buffered]
  rw [if_neg (by simp [hb, hnm])]
  rcases h with h1 | ⟨h2, h3⟩
  · rw [if_pos h1]
  · rw [if_neg (by omega), if_neg (by omega), if_pos h3]

lemma Buffered_true_of_full (m : Meta) (hnm : m.noMeta = false)
    (hpos : 0 < m.length) (hbl : m.length ≤ (m.buffer.length : Int)) :
    (m.Buffered).1 = true := by
  by_cases hb : m.buffered = true
  · rw [Buffered_of_buffered m hb]
  · have hb1 : m.buffered = false := by simpa using hb
    simp only [Meta.Buffered]
    rw [if_neg (by simp [hb1, hnm]), if_neg (by omega), if_neg (by omega), if_neg (by omega)]

/-- One `Write` call against a stream that begins with a complete tag of
total length `Tn`: the consumed count advances `min · Tn`, the buffer is
the corresponding stream prefix, and the no-tag flag never fires. -/
lemma Write_tag_step (s : List Nat) (Tn fed : Nat) (m : Meta) (c : List Nat)
    (hmag : s.take 3 = id3Magic) (hs10 : 10 ≤ s.length)
    (hT : tagLen s = (Tn : Int)) (hTs : Tn ≤ s.length)
    (hbuf : m.buffer = s.take (min fed Tn)) (hnm : m.noMeta = false)
    (hbd : m.buffered = true → Tn ≤ fed)
    (hfs : fed + c.length ≤ s.length)
    (hcc : s.take fed ++ c = s.take (fed + c.length)) :
    (m.Write c).1 = ((min (fed + c.length) Tn : Nat) : Int) - ((min fed Tn : Nat) : Int)
    ∧ (m.Write c).2.2.buffer = s.take (min (fed + c.length) Tn)
    ∧ (m.Write c).2.2.noMeta = false
    ∧ ((m.Write c).2.2.buffered = true → Tn ≤ fed + c.length) := by
  have hTn10 : 10 ≤ Tn := by
    have h1 := tagLen_pos_of_magic s hmag hs10
    have h2 := tagLen_pos_ge10 s h1
    omega
  by_cases hTfed : Tn ≤ fed
  · -- the tag is already complete: redundant write
    have hmin : min fed Tn = Tn := by omega
    have hblen : m.buffer.length = Tn := by
      rw [hbuf, hmin, List.length_take]
      omega
    have hlenm : m.length = (Tn : Int) := by
      rw [Meta.length, if_neg (by simp [hnm]), hbuf, hmin, tagLen_take s Tn (by omega), hT]
    have hBt : (m.Buffered).1 = true :=
      Buffered_true_of_full m hnm (by omega) (by rw [hlenm, hblen])
    have hw : m.Write c = (0, GoError.eof, (m.Buffered).2) := by
      simp [Meta.Write, hBt]
    rw [hw]
    refine ⟨by omega, ?_, ?_, fun _ => by omega⟩
    · rw [Buffered_buffer, hbuf, hmin]
      congr 1
      omega
    · rw [Buffered_noMeta_of_ne m (by rw [hlenm]; omega), hnm]
  · -- still buffering
    have hfed : fed < Tn := by omega
    have hminf : min fed Tn = fed := by omega
    have hbF : m.buffered = false := by
      rcases hB : m.buffered with _ | _
      · rfl
      · exact absurd (hbd hB) (by omega)
    have hblen : m.buffer.length = fed := by
      rw [hbuf, hminf, List.length_take]
      omega
    have hlenm : m.length = tagLen (s.take fed) := by
      rw [Meta.length, if_neg (by simp [hnm]), hbuf, hminf]
    have hBf : m.Buffered = (false, m) := by
      rcases lt_or_ge fed 10 with hf10 | hf10
      · exact Buffered_false_of_partial m hbF hnm
          (Or.inl (by rw [hlenm, tagLen_take_lt10 s fed hmag (by omega) hf10]; norm_num))
      · refine Buffered_false_of_partial m hbF hnm (Or.inr ⟨?_, ?_⟩)
        · rw [hlenm, tagLen_take s fed (by omega), hT]
          omega
        · rw [hlenm, tagLen_take s fed (by omega), hT, hblen]
          omega
    have hm2buf : m.buffer ++ c = s.take (fed + c.length) := by
      rw [hbuf, hminf]
      exact hcc
    have hm2blen : (m.buffer ++ c).length = fed + c.length := by
      rw [hm2buf, List.length_take]
      omega
    have hlen2 : ({ m with buffer := m.buffer ++ c } : Meta).length
        = tagLen (s.take (fed + c.length)) := by
      rw [Meta.length, if_neg (by simp [hnm]), hm2buf]
    simp only [Meta.Write, hBf, Bool.false_eq_true, if_false]
    rcases lt_or_ge (fed + c.length) 10 with h10p | h10p
    · -- still shorter than the header: length undeterminable
      have hl : ({ m with buffer := m.buffer ++ c } : Meta).length < 0 := by
        rw [hlen2, tagLen_take_lt10 s (fed + c.length) hmag (by omega) h10p]
        norm_num
      rw [if_pos hl]
      have hm1 : min (fed + c.length) Tn = fed + c.length := by omega
      refine ⟨by omega, ?_, by simp [hnm], ?_⟩
      · rw [hm1]
        exact hm2buf
      · intro hb
        simp only at hb
        rw [hbF] at hb
        cases hb
    · have hl2 : ({ m with buffer := m.buffer ++ c } : Meta).length = (Tn : Int) := by
        rw [hlen2, tagLen_take s (fed + c.length) (by omega), hT]
      rw [if_neg (by omega), if_neg (by omega)]
      rcases le_or_lt (fed + c.length) Tn with hle | hlt
      · -- everything fits: all bytes consumed
        rw [if_pos (by rw [hl2]; simp only [hm2blen]; omega)]
        have hm1 : min (fed + c.length) Tn = fed + c.length := by omega
        refine ⟨by omega, ?_, by simp [hnm], ?_⟩
        · rw [hm1]
          exact hm2buf
        · intro hb
          simp only at hb
          rw [hbF] at hb
          cases hb
      · -- overshoot: truncate to Tn and complete
        rw [if_neg (by rw [hl2]; simp only [hm2blen]; omega)]
        have hm1 : min (fed + c.length) Tn = Tn := by omega
        have htrunc : (m.buffer ++ c).take (({ m with buffer := m.buffer ++ c } : Meta).length).toNat
            = s.take Tn := by
          rw [hl2, hm2buf, List.take_take]
          congr 1
          omega
        have hm3len : ({ m with buffer :=
            (m.buffer ++ c).take (({ m with buffer := m.buffer ++ c } : Meta).length).toNat }
              : Meta).length = (Tn : Int) := by
          rw [Meta.length, if_neg (by simp [hnm]), htrunc, tagLen_take s Tn (by omega), hT]
        refine ⟨?_, ?_, ?_, fun _ => by omega⟩
        · show ({ m with buffer := m.buffer ++ c } : Meta).length
              - ((m.buffer ++ c).length - (c.length : Int)) = _
          rw [hl2, hm2blen]
          push_cast
          omega
        · show (Meta.Buffered _).2.buffer = _
          rw [Buffered_buffer]
          rw [hm1]
          exact htrunc
        · show (Meta.Buffered _).2.noMeta = false
          rw [Buffered_noMeta_of_ne _ (by rw [hm3len]; omega)]
          exact hnm

/-- Folding `Write` over a chunk list that continues the stream `s`. -/
lemma feedAll_tag (s : List Nat) (Tn : Nat)
    (hmag : s.take 3 = id3Magic) (hs10 : 10 ≤ s.length)
    (hT : tagLen s = (Tn : Int)) (hTs : Tn ≤ s.length) :
    ∀ (chunks : List (List Nat)) (fed : Nat) (m : Meta),
      m.buffer = s.take (min fed Tn) → m.noMeta = false →
      (m.buffered = true → Tn ≤ fed) →
      (s.drop fed).take chunks.flatten.length = chunks.flatten →
      fed + chunks.flatten.length ≤ s.length →
      (feedAll m chunks).1
          = ((min (fed + chunks.flatten.length) Tn : Nat) : Int) - ((min fed Tn : Nat) : Int)
      ∧ (feedAll m chunks).2.buffer = s.take (min (fed + chunks.flatten.length) Tn)
      ∧ (feedAll m chunks).2.noMeta = false
      ∧ ((feedAll m chunks).2.buffered = true → Tn ≤ fed + chunks.flatten.length) := by
  intro chunks
  induction chunks with
  | nil =>
    intro fed m hbuf hnm hbd htk hbound
    simp only [feedAll, List.flatten_nil, List.length_nil, Nat.add_zero]
    exact ⟨by omega, hbuf, hnm, hbd⟩
  | cons c rest ih =>
    intro fed m hbuf hnm hbd htk hbound
    simp only [List.flatten_cons, List.length_append] at htk hbound ⊢
    have htkc : (s.drop fed).take c.length = c := by
      have h1 := congrArg (List.take c.length) htk
      rw [List.take_take, Nat.min_eq_left (by omega), List.take_left' rfl] at h1
      exact h1
    have hcc : s.take fed ++ c = s.take (fed + c.length) := by
      rw [List.take_add]
      congr 1
      exact htkc.symm
    obtain ⟨hs1, hs2, hs3, hs4⟩ :=
      Write_tag_step s Tn fed m c hmag hs10 hT hTs hbuf hnm hbd (by omega) hcc
    have htkrest : (s.drop (fed + c.length)).take rest.flatten.length = rest.flatten := by
      have h2 := congrArg (List.drop c.length) htk
      rw [List.drop_take, List.drop_left' rfl, List.drop_drop,
        Nat.add_sub_cancel_left] at h2
      exact h2
    obtain ⟨hr1, hr2, hr3, hr4⟩ := ih (fed + c.length) (m.Write c).2.2 hs2 hs3 hs4 htkrest (by omega)
    simp only [feedAll]
    refine ⟨?_, ?_, hr3, ?_⟩
    · dsimp only
      rw [hs1, hr1]
      have hm : fed + c.length + rest.flatten.length = fed + (c.length + rest.flatten.length) := by
        omega
      rw [hm]
      omega
    · dsimp only
      rw [hr2]
      congr 1
      omega
    · dsimp only
      intro hb
      have := hr4 hb
      omega

/-- C2: for a stream that begins with a complete tag of total length `Tn`
(header magic plus declared length), feeding any chunk partition reports,
after any number of calls, a total consumed count of exactly
`min fedBytes Tn`, a buffer holding exactly that stream prefix, and a
completion flag that is set exactly once the `Tn`-th byte has been
supplied — so the consumed counts sum to `Tn`, the buffer is truncated to
exactly `Tn` bytes, and extra bytes in the boundary-crossing call are not
consumed. -/
theorem C2_boundary_exact (chunks : List (List Nat)) (k Tn : Nat)
    (hmag : chunks.flatten.take 3 = id3Magic)
    (hs10 : 10 ≤ chunks.flatten.length)
    (hT : tagLen chunks.flatten = (Tn : Int))
    (hTs : Tn ≤ chunks.flatten.length)
    (hk : k ≤ chunks.length) :
    (feedAll metaInit (chunks.take k)).1
        = ((min (chunks.take k).flatten.length Tn : Nat) : Int)
    ∧ (feedAll metaInit (chunks.take k)).2.buffer
        = chunks.flatten.take (min (chunks.take k).flatten.length Tn)
    ∧ ((((feedAll metaInit (chunks.take k)).2.Buffered).1 = true)
        ↔ Tn ≤ (chunks.take k).flatten.length) := by
  have hTn10 : 10 ≤ Tn := by
    have h1 := tagLen_pos_of_magic chunks.flatten hmag hs10
    have h2 := tagLen_pos_ge10 chunks.flatten h1
    omega
  have hsplit : (chunks.take k).flatten ++ (chunks.drop k).flatten = chunks.flatten := by
    rw [← List.flatten_append, List.take_append_drop]
  have hlenle : (chunks.take k).flatten.length ≤ chunks.flatten.length := by
    rw [← hsplit, List.length_append]
    omega
  have htk : (chunks.flatten.drop 0).take (chunks.take k).flatten.length
      = (chunks.take k).flatten := by
    rw [List.drop_zero, ← hsplit, List.take_left]
  obtain ⟨h1, h2, h3, h4⟩ := feedAll_tag chunks.flatten Tn hmag hs10 hT hTs
    (chunks.take k) 0 metaInit (by simp [metaInit]) rfl (by intro hc; cases hc) htk (by omega)
  simp only [Nat.zero_add] at h1 h2 h4
  refine ⟨by rw [h1]; omega, h2, ?_⟩
  constructor
  · intro hb
    by_contra hlt
    have hfed : (chunks.take k).flatten.length < Tn := by omega
    have hbF : (feedAll metaInit (chunks.take k)).2.buffered = false := by
      rcases hB : (feedAll metaInit (chunks.take k)).2.buffered with _ | _
      · rfl
      · exact absurd (h4 hB) (by omega)
    have hlenm : (feedAll metaInit (chunks.take k)).2.length
        = tagLen (chunks.flatten.take (chunks.take k).flatten.length) := by
      rw [Meta.length, if_neg (by simp [h3]), h2, Nat.min_eq_left (by omega)]
    have hfls : (feedAll metaInit (chunks.take k)).2.Buffered
        = (false, (feedAll metaInit (chunks.take k)).2) := by
      rcases lt_or_ge (chunks.take k).flatten.length 10 with hf10 | hf10
      · exact Buffered_false_of_partial _ hbF h3 (Or.inl (by
          rw [hlenm, tagLen_take_lt10 chunks.flatten _ hmag (by omega) hf10]
          norm_num))
      · refine Buffered_false_of_partial _ hbF h3 (Or.inr ⟨?_, ?_⟩)
        · rw [hlenm, tagLen_take chunks.flatten _ (by omega), hT]
          omega
        · rw [hlenm, tagLen_take chunks.flatten _ (by omega), hT, h2,
            Nat.min_eq_left (by omega), List.length_take]
          omega
    rw [hfls] at hb
    cases hb
  · intro hge
    refine Buffered_true_of_full _ h3 ?_ ?_
    · rw [Meta.length, if_neg (by simp [h3]), h2, Nat.min_eq_right (by omega),
        tagLen_take chunks.flatten Tn (by omega), hT]
      omega
    · rw [Meta.length, if_neg (by simp [h3]), h2, Nat.min_eq_right (by omega),
        tagLen_take chunks.flatten Tn (by omega), hT, List.length_take]
      omega

/-- Witness for C2: a 23-byte tag (declared body 13) fed in four chunks of
sizes 7, 7, 7 and 5, the last chunk carrying 3 extra stream bytes. -/
theorem C2_boundary_exact_witness :
    (feedAll metaInit ([[73,68,51,4,0,0,0], [0,0,13,84,73,84,50], [0,0,0,3,0,0,3],
        [88,0,9,9,9]].take 4)).1
      = ((min ([[73,68,51,4,0,0,0], [0,0,13,84,73,84,50], [0,0,0,3,0,0,3],
          [88,0,9,9,9]].take 4).flatten.length 23 : Nat) : Int)
    ∧ (feedAll metaInit ([[73,68,51,4,0,0,0], [0,0,13,84,73,84,50], [0,0,0,3,0,0,3],
        [88,0,9,9,9]].take 4)).2.buffer
      = [[73,68,51,4,0,0,0], [0,0,13,84,73,84,50], [0,0,0,3,0,0,3],
          [88,0,9,9,9]].flatten.take (min ([[73,68,51,4,0,0,0], [0,0,13,84,73,84,50],
            [0,0,0,3,0,0,3], [88,0,9,9,9]].take 4).flatten.length 23)
    ∧ ((((feedAll metaInit ([[73,68,51,4,0,0,0], [0,0,13,84,73,84,50], [0,0,0,3,0,0,3],
        [88,0,9,9,9]].take 4)).2.Buffered).1 = true)
      ↔ 23 ≤ ([[73,68,51,4,0,0,0], [0,0,13,84,73,84,50], [0,0,0,3,0,0,3],
          [88,0,9,9,9]].take 4).flatten.length) :=
  C2_boundary_exact [[73,68,51,4,0,0,0], [0,0,13,84,73,84,50], [0,0,0,3,0,0,3],
      [88,0,9,9,9]] 4 23
    (by decide) (by decide) (by decide) (by decide) (by decide)

end Getcast
